import Mathlib

/-!
Verification of the chart-rendering engine in `bin/weeplot/genplot.py`.

Modelling conventions:
* Python integers are modelled by `Int` (`ℤ`); Python floats are modelled by
  exact rational arithmetic (`ℚ`).  All the float computations the claims
  depend on are built from field operations, `abs`, comparisons and `% 1.0`
  (modelled by `Int.fract`), so the rational embedding follows the source
  expressions literally.
* Python `x >> n` on an integer is floor division by `2^n` (`Int.ediv`) and
  `x & 0xff` is `Int.emod x 256`; both agree with CPython semantics for all
  integers (CPython uses two's-complement semantics for negative operands,
  which coincide with floor division and floor mod by a power of two).
* Missing values (`None`) are modelled by `Option`.
* Mutation of a `GeneralPlot` object is modelled by explicit state passing:
  a method that writes a field becomes a function returning the new value.
* External collaborators that are not part of this repository (PIL drawing
  primitives, the nice-number scale engine) are taken as function parameters,
  so theorems quantify over every possible collaborator behaviour.
-/

namespace Weeplot

/-- `int2rgb` from `genplot.py`: unpack a BGR-packed integer into
`(r, g, b)` where `r` is the low byte, `g` the middle byte and `b` the
high byte (`b = (x >> 16) & 0xff`, `g = (x >> 8) & 0xff`, `r = x & 0xff`). -/
def int2rgb (x : ℤ) : ℤ × ℤ × ℤ :=
  (x % 256, (x / 256) % 256, (x / 65536) % 256)

/-- `rgb2int` from `genplot.py`: pack channels as `r + g*256 + b*256*256`. -/
def rgb2int (r g b : ℤ) : ℤ :=
  r + g * 256 + b * 256 * 256

/-- `add_alpha` from `genplot.py`: extract `(r, g, b)` exactly as `int2rgb`
does (low, middle, high byte) and append a fully opaque alpha `0xff`. -/
def add_alpha (i : ℤ) : ℤ × ℤ × ℤ × ℤ :=
  (i % 256, (i / 256) % 256, (i / 65536) % 256, 255)

/-- C9: the packed-colour conversions form a consistent B-G-R round trip:
for all channel values `r, g, b` in `[0,255]`,
`int2rgb (rgb2int r g b) = (r, g, b)` and
`add_alpha (rgb2int r g b) = (r, g, b, 255)`. -/
theorem int2rgb_add_alpha_roundtrip (r g b : ℤ)
    (hr0 : 0 ≤ r) (hr1 : r ≤ 255) (hg0 : 0 ≤ g) (hg1 : g ≤ 255)
    (hb0 : 0 ≤ b) (hb1 : b ≤ 255) :
    int2rgb (rgb2int r g b) = (r, g, b) ∧
    add_alpha (rgb2int r g b) = (r, g, b, 255) := by
  unfold int2rgb rgb2int add_alpha
  simp only [Prod.mk.injEq, and_true]
  omega

/-- Witness for C9 at a concrete colour. -/
theorem int2rgb_add_alpha_roundtrip_witness :
    int2rgb (rgb2int 18 52 86) = (18, 52, 86) ∧
    add_alpha (rgb2int 18 52 86) = (18, 52, 86, 255) :=
  int2rgb_add_alpha_roundtrip 18 52 86 (by norm_num) (by norm_num)
    (by norm_num) (by norm_num) (by norm_num) (by norm_num)

/-- Packing inverts unpacking on 24-bit colours (helper for the blend
endpoint theorems). -/
theorem rgb2int_int2rgb (x : ℤ) (h0 : 0 ≤ x) (h1 : x < 16777216) :
    rgb2int (int2rgb x).1 (int2rgb x).2.1 (int2rgb x).2.2 = x := by
  unfold int2rgb rgb2int
  dsimp only
  omega

/-- Channel bounds produced by `int2rgb` (helper). -/
theorem int2rgb_bounds (x : ℤ) :
    (0 ≤ (int2rgb x).1 ∧ (int2rgb x).1 ≤ 255) ∧
    (0 ≤ (int2rgb x).2.1 ∧ (int2rgb x).2.1 ≤ 255) ∧
    (0 ≤ (int2rgb x).2.2 ∧ (int2rgb x).2.2 ≤ 255) := by
  unfold int2rgb
  dsimp only
  omega

/-- Python `colorsys.rgb_to_hls` (stdlib collaborator of `blend`), translated
literally; `(h / 6.0) % 1.0` becomes `Int.fract (h0 / 6)`. -/
def rgb_to_hls (r g b : ℚ) : ℚ × ℚ × ℚ :=
  let maxc := max r (max g b)
  let minc := min r (min g b)
  let sumc := maxc + minc
  let rangec := maxc - minc
  let l := sumc / 2
  if minc = maxc then (0, l, 0) else
  let s := if l ≤ 1/2 then rangec / sumc else rangec / (2 - sumc)
  let rc := (maxc - r) / rangec
  let gc := (maxc - g) / rangec
  let bc := (maxc - b) / rangec
  let h0 := if r = maxc then bc - gc else if g = maxc then 2 + rc - bc else 4 + gc - rc
  (Int.fract (h0 / 6), l, s)

/-- Python `colorsys._v` helper of `hls_to_rgb`; the leading `hue = hue % 1.0`
becomes `Int.fract`. -/
def hls_v (m1 m2 hue : ℚ) : ℚ :=
  if Int.fract hue < 1/6 then m1 + (m2 - m1) * Int.fract hue * 6
  else if Int.fract hue < 1/2 then m2
  else if Int.fract hue < 2/3 then m1 + (m2 - m1) * (2/3 - Int.fract hue) * 6
  else m1

/-- Python `colorsys.hls_to_rgb`, translated literally. -/
def hls_to_rgb (h l s : ℚ) : ℚ × ℚ × ℚ :=
  if s = 0 then (l, l, l) else
  let m2 := if l ≤ 1/2 then l * (1 + s) else l + s - l * s
  let m1 := 2 * l - m2
  (hls_v m1 m2 (h + 1/3), hls_v m1 m2 h, hls_v m1 m2 (h - 1/3))

/-- Python built-in `round` applied to a number: nearest integer, ties to
even (used for the final channel rounding in `blend`). -/
def pyround (q : ℚ) : ℤ :=
  if Int.fract q < 1/2 then ⌊q⌋
  else if 1/2 < Int.fract q then ⌊q⌋ + 1
  else if ⌊q⌋ % 2 = 0 then ⌊q⌋ else ⌊q⌋ + 1

/-- The hue computation inside `blend` (`genplot.py` lines 689-704): raw hue
difference, wrap-around interpolation when `abs h_delta > 0.5`, then the two
conditional wrap steps; direct linear interpolation otherwise. -/
def hue_interp (h1 h2 alpha_h : ℚ) : ℚ :=
  if 1/2 < |h2 - h1| then
    let h_range := 1 - |h2 - h1|
    let h_dir : ℚ := if h2 - h1 < 0 then 1 else -1
    let h := h2 - h_dir * h_range * alpha_h
    let h := if h < 0 then h + 1 else h
    if 1 < h then h - 1 else h
  else alpha_h * h1 + (1 - alpha_h) * h2

/-- The first half of `blend` (`genplot.py` lines 678-687): unpack both
colours, convert to HLS, and apply the grey-endpoint hue adoption
(`if s1 == 0: h1 = h2` then `if s2 == 0: h2 = h1`, the second test seeing
the updated `h1`).  Returns `((h1, l1, s1), (h2, l2, s2))` after adoption. -/
def blendEff (c bg : ℤ) : (ℚ × ℚ × ℚ) × (ℚ × ℚ × ℚ) :=
  let rgb1 := int2rgb c
  let hls1 := rgb_to_hls ((rgb1.1 : ℚ) / 255) ((rgb1.2.1 : ℚ) / 255) ((rgb1.2.2 : ℚ) / 255)
  let rgb2 := int2rgb bg
  let hls2 := rgb_to_hls ((rgb2.1 : ℚ) / 255) ((rgb2.2.1 : ℚ) / 255) ((rgb2.2.2 : ℚ) / 255)
  let h1 := if hls1.2.2 = 0 then hls2.1 else hls1.1
  let h2 := if hls2.2.2 = 0 then h1 else hls2.1
  ((h1, hls1.2.1, hls1.2.2), (h2, hls2.2.1, hls2.2.2))

/-- `blend` from `genplot.py`: HLS interpolation of `c` toward `bg` with
independent hue/lightness/saturation weights, converted back to a packed
integer with per-channel rounding. -/
def blend (c bg : ℤ) (alpha_h alpha_l alpha_s : ℚ) : ℤ :=
  let e := blendEff c bg
  let h := hue_interp e.1.1 e.2.1 alpha_h
  let l := alpha_l * e.1.2.1 + (1 - alpha_l) * e.2.2.1
  let s := alpha_s * e.1.2.2 + (1 - alpha_s) * e.2.2.2
  let rgb := hls_to_rgb h l s
  rgb2int (pyround (rgb.1 * 255)) (pyround (rgb.2.1 * 255)) (pyround (rgb.2.2 * 255))

/-- `blend_hls` from `genplot.py`: fade all three channels by one weight. -/
def blend_hls (c bg : ℤ) (alpha : ℚ) : ℤ :=
  blend c bg alpha alpha alpha

/-- `blend_ls` from `genplot.py`: fade lightness and saturation only. -/
def blend_ls (c bg : ℤ) (alpha : ℚ) : ℤ :=
  blend c bg 1 alpha alpha

/-- Fractional-part helper: on `[0,1)` the fractional part is the identity. -/
theorem fract_eq_self_of {x : ℚ} (h0 : 0 ≤ x) (h1 : x < 1) : Int.fract x = x :=
  Int.fract_eq_self.mpr ⟨h0, h1⟩

/-- Fractional-part helper: on `[-1,0)` the fractional part adds one. -/
theorem fract_eq_add_one {x : ℚ} (h0 : -1 ≤ x) (h1 : x < 0) : Int.fract x = x + 1 := by
  have h : Int.fract (x + (1 : ℤ)) = Int.fract x := Int.fract_add_int x 1
  rw [← h]
  push_cast
  exact fract_eq_self_of (by linarith) (by linarith)

/-- Evaluation of `hls_v` on its first branch. -/
theorem hls_v_eval_lo {m1 m2 hue : ℚ} (h0 : 0 ≤ hue) (h1 : hue < 1/6) :
    hls_v m1 m2 hue = m1 + (m2 - m1) * hue * 6 := by
  unfold hls_v
  rw [fract_eq_self_of h0 (by linarith), if_pos h1]

/-- Evaluation of `hls_v` on its second branch. -/
theorem hls_v_eval_mid {m1 m2 hue : ℚ} (h0 : 1/6 ≤ hue) (h1 : hue < 1/2) :
    hls_v m1 m2 hue = m2 := by
  unfold hls_v
  rw [fract_eq_self_of (by linarith) (by linarith), if_neg (by linarith), if_pos h1]

/-- Evaluation of `hls_v` on its third branch. -/
theorem hls_v_eval_hi {m1 m2 hue : ℚ} (h0 : 1/2 ≤ hue) (h1 : hue < 2/3) :
    hls_v m1 m2 hue = m1 + (m2 - m1) * (2/3 - hue) * 6 := by
  unfold hls_v
  rw [fract_eq_self_of (by linarith) (by linarith), if_neg (by linarith),
    if_neg (by linarith), if_pos h1]

/-- Evaluation of `hls_v` on its last branch. -/
theorem hls_v_eval_top {m1 m2 hue : ℚ} (h0 : 2/3 ≤ hue) (h1 : hue < 1) :
    hls_v m1 m2 hue = m1 := by
  unfold hls_v
  rw [fract_eq_self_of (by linarith) (by linarith), if_neg (by linarith),
    if_neg (by linarith), if_neg (by linarith)]

/-- `hls_v` only sees the hue modulo one. -/
theorem hls_v_add_int (m1 m2 hue : ℚ) (k : ℤ) :
    hls_v m1 m2 (hue + k) = hls_v m1 m2 hue := by
  unfold hls_v
  rw [Int.fract_add_int]

/-- Grey branch of `rgb_to_hls`. -/
theorem rgb_to_hls_gray {r g b : ℚ} (h : min r (min g b) = max r (max g b)) :
    rgb_to_hls r g b = (0, (max r (max g b) + min r (min g b)) / 2, 0) := by
  simp only [rgb_to_hls]
  rw [if_pos h]

/-- Lightness and saturation of `rgb_to_hls` in the non-grey branch. -/
theorem rgb_to_hls_ls {r g b : ℚ} (hne : ¬ min r (min g b) = max r (max g b)) :
    (rgb_to_hls r g b).2.1 = (max r (max g b) + min r (min g b)) / 2 ∧
    (rgb_to_hls r g b).2.2 =
      (if (max r (max g b) + min r (min g b)) / 2 ≤ 1/2
        then (max r (max g b) - min r (min g b)) / (max r (max g b) + min r (min g b))
        else (max r (max g b) - min r (min g b)) / (2 - (max r (max g b) + min r (min g b)))) := by
  simp only [rgb_to_hls]
  rw [if_neg hne]
  exact ⟨rfl, rfl⟩

/-- Hue of `rgb_to_hls` when the red channel is maximal. -/
theorem rgb_to_hls_h_rmax {r g b : ℚ} (hne : ¬ min r (min g b) = max r (max g b))
    (hr : r = max r (max g b)) :
    (rgb_to_hls r g b).1 =
      Int.fract ((g - b) / (max r (max g b) - min r (min g b)) / 6) := by
  simp only [rgb_to_hls]
  rw [if_neg hne]
  show Int.fract _ = _
  rw [if_pos hr]
  congr 1
  rw [div_sub_div_same]
  ring_nf

/-- Hue of `rgb_to_hls` when the green channel is (first) maximal. -/
theorem rgb_to_hls_h_gmax {r g b : ℚ} (hne : ¬ min r (min g b) = max r (max g b))
    (hr : ¬ r = max r (max g b)) (hg : g = max r (max g b)) :
    (rgb_to_hls r g b).1 =
      Int.fract ((2 + (b - r) / (max r (max g b) - min r (min g b))) / 6) := by
  simp only [rgb_to_hls]
  rw [if_neg hne]
  show Int.fract _ = _
  rw [if_neg hr, if_pos hg]
  congr 1
  rw [add_sub_assoc, div_sub_div_same]
  ring_nf

/-- Hue of `rgb_to_hls` when the blue channel is the maximal one. -/
theorem rgb_to_hls_h_bmax {r g b : ℚ} (hne : ¬ min r (min g b) = max r (max g b))
    (hr : ¬ r = max r (max g b)) (hg : ¬ g = max r (max g b)) :
    (rgb_to_hls r g b).1 =
      Int.fract ((4 + (r - g) / (max r (max g b) - min r (min g b))) / 6) := by
  simp only [rgb_to_hls]
  rw [if_neg hne]
  show Int.fract _ = _
  rw [if_neg hr, if_neg hg]
  congr 1
  rw [add_sub_assoc, div_sub_div_same]
  ring_nf

/-- In the non-grey case `hls_to_rgb` recovers `m1 = minc` and `m2 = maxc`
and evaluates the three channels through `hls_v`. -/
theorem hls_to_rgb_eval (m M hq : ℚ) (hm0 : 0 ≤ m) (hmM : m < M) (hM1 : M ≤ 1) :
    hls_to_rgb hq ((M + m) / 2)
      (if (M + m) / 2 ≤ 1/2 then (M - m) / (M + m) else (M - m) / (2 - (M + m))) =
      (hls_v m M (hq + 1/3), hls_v m M hq, hls_v m M (hq - 1/3)) := by
  have hM0 : 0 < M := lt_of_le_of_lt hm0 hmM
  have hsum : 0 < M + m := by linarith
  have h2sum : 0 < 2 - (M + m) := by linarith
  have hspos : 0 < (if (M + m) / 2 ≤ 1/2
      then (M - m) / (M + m) else (M - m) / (2 - (M + m))) := by
    split_ifs with hl
    · exact div_pos (by linarith) hsum
    · exact div_pos (by linarith) h2sum
  simp only [hls_to_rgb]
  rw [if_neg (ne_of_gt hspos)]
  have hm2 : (if (M + m) / 2 ≤ 1/2
      then (M + m) / 2 * (1 + (if (M + m) / 2 ≤ 1/2
        then (M - m) / (M + m) else (M - m) / (2 - (M + m))))
      else (M + m) / 2 + (if (M + m) / 2 ≤ 1/2
        then (M - m) / (M + m) else (M - m) / (2 - (M + m))) -
        (M + m) / 2 * (if (M + m) / 2 ≤ 1/2
        then (M - m) / (M + m) else (M - m) / (2 - (M + m)))) = M := by
    split_ifs with hl
    · field_simp
      ring
    · field_simp
      ring
  rw [hm2]
  have hm1 : 2 * ((M + m) / 2) - M = m := by ring
  rw [hm1]


/-- The hue argument of `hls_v` matters only modulo one (helper, step up). -/
theorem hls_v_add_one (m1 m2 hue : ℚ) : hls_v m1 m2 (hue + 1) = hls_v m1 m2 hue := by
  have h := hls_v_add_int m1 m2 hue 1
  push_cast at h
  exact h

/-- The hue argument of `hls_v` matters only modulo one (helper, step down). -/
theorem hls_v_sub_one (m1 m2 hue : ℚ) : hls_v m1 m2 (hue - 1) = hls_v m1 m2 hue := by
  have h := hls_v_add_int m1 m2 hue (-1)
  push_cast at h
  rw [show hue + (-1 : ℚ) = hue - 1 by ring] at h
  exact h

/-- Arithmetic helper for the first `hls_v` branch. -/
theorem hls_v_lin (x y RR : ℚ) (h : RR ≠ 0) : x + RR * (y / RR / 6) * 6 = x + y := by
  field_simp
  ring

/-- Exact round trip of Python `colorsys`: converting RGB channels in `[0,1]`
to HLS and back is the identity (the key lemma behind the `blend` endpoint
properties). -/
theorem hls_rgb_roundtrip (r g b : ℚ) (hr0 : 0 ≤ r) (hr1 : r ≤ 1)
    (hg0 : 0 ≤ g) (hg1 : g ≤ 1) (hb0 : 0 ≤ b) (hb1 : b ≤ 1) :
    hls_to_rgb (rgb_to_hls r g b).1 (rgb_to_hls r g b).2.1 (rgb_to_hls r g b).2.2
      = (r, g, b) := by
  have hmr : min r (min g b) ≤ r := min_le_left _ _
  have hmg : min r (min g b) ≤ g := (min_le_right r _).trans (min_le_left g b)
  have hmb : min r (min g b) ≤ b := (min_le_right r _).trans (min_le_right g b)
  have hrM : r ≤ max r (max g b) := le_max_left _ _
  have hgM : g ≤ max r (max g b) := (le_max_left g b).trans (le_max_right r _)
  have hbM : b ≤ max r (max g b) := (le_max_right g b).trans (le_max_right r _)
  have hm0 : 0 ≤ min r (min g b) := le_min hr0 (le_min hg0 hb0)
  have hM1 : max r (max g b) ≤ 1 := max_le hr1 (max_le hg1 hb1)
  by_cases hmm : min r (min g b) = max r (max g b)
  · -- grey branch: all three channels coincide with the lightness
    rw [rgb_to_hls_gray hmm]
    have hre : r = min r (min g b) := le_antisymm (hmm ▸ hrM) hmr
    have hge : g = min r (min g b) := le_antisymm (hmm ▸ hgM) hmg
    have hbe : b = min r (min g b) := le_antisymm (hmm ▸ hbM) hmb
    unfold hls_to_rgb
    rw [if_pos rfl]
    have hll : (max r (max g b) + min r (min g b)) / 2 = min r (min g b) := by
      rw [← hmm]; ring
    rw [hll, Prod.mk.injEq, Prod.mk.injEq]
    exact ⟨hre.symm, hge.symm, hbe.symm⟩
  · have hmM : min r (min g b) < max r (max g b) := lt_of_le_of_ne (hmr.trans hrM) hmm
    obtain ⟨hl, hs⟩ := rgb_to_hls_ls hmm
    rw [hl, hs]
    have hR : 0 < max r (max g b) - min r (min g b) := by linarith
    have hRne : max r (max g b) - min r (min g b) ≠ 0 := ne_of_gt hR
    by_cases hrmax : r = max r (max g b)
    · -- red is the maximal channel
      rw [rgb_to_hls_h_rmax hmm hrmax, hls_to_rgb_eval _ _ _ hm0 hmM hM1]
      have hmgb : min r (min g b) = min g b :=
        min_eq_right ((min_le_left g b).trans (hrmax ▸ hgM))
      have hq1 : (g - b) / (max r (max g b) - min r (min g b)) ≤ 1 := by
        rw [div_le_one hR]; linarith
      simp only [Prod.mk.injEq]
      by_cases hbg : b ≤ g
      · -- hue lands in [0, 1/6]
        have hmeq : min r (min g b) = b := by rw [hmgb]; exact min_eq_right hbg
        have hq0 : 0 ≤ (g - b) / (max r (max g b) - min r (min g b)) :=
          div_nonneg (by linarith) hR.le
        rw [fract_eq_self_of (by linarith) (by linarith)]
        refine ⟨?_, ?_, ?_⟩
        · -- red channel
          by_cases hql : (g - b) / (max r (max g b) - min r (min g b)) < 1
          · rw [hls_v_eval_mid (by linarith) (by linarith)]
            exact hrmax.symm
          · have hq1e : (g - b) / (max r (max g b) - min r (min g b)) = 1 :=
              le_antisymm hq1 (not_lt.mp hql)
            rw [hls_v_eval_hi (by rw [hq1e]; norm_num) (by rw [hq1e]; norm_num), hq1e,
              ← hrmax]
            ring
        · -- green channel
          by_cases hql : (g - b) / (max r (max g b) - min r (min g b)) < 1
          · rw [hls_v_eval_lo (by linarith) (by linarith), hls_v_lin _ _ _ hRne, hmeq]
            ring
          · have hq1e : (g - b) / (max r (max g b) - min r (min g b)) = 1 :=
              le_antisymm hq1 (not_lt.mp hql)
            have hq1f : g - b = max r (max g b) - min r (min g b) :=
              (div_eq_one_iff_eq hRne).mp hq1e
            rw [hls_v_eval_mid (by rw [hq1e]; try norm_num) (by rw [hq1e]; try norm_num)]
            linarith
        · -- blue channel
          rw [show (g - b) / (max r (max g b) - min r (min g b)) / 6 - 1/3
              = ((g - b) / (max r (max g b) - min r (min g b)) / 6 + 2/3) - 1 by ring,
            hls_v_sub_one, hls_v_eval_top (by linarith) (by linarith)]
          exact hmeq
      · -- green strictly below blue: hue lands in [5/6, 1)
        have hgb : g < b := not_le.mp hbg
        have hmeq : min r (min g b) = g := by rw [hmgb]; exact min_eq_left hgb.le
        have hqneg : (g - b) / (max r (max g b) - min r (min g b)) < 0 :=
          div_neg_of_neg_of_pos (by linarith) hR
        have hqm1 : -1 ≤ (g - b) / (max r (max g b) - min r (min g b)) := by
          rw [le_div_iff₀ hR]; linarith
        rw [fract_eq_add_one (by linarith) (by linarith)]
        refine ⟨?_, ?_, ?_⟩
        · -- red channel
          rw [show (g - b) / (max r (max g b) - min r (min g b)) / 6 + 1 + 1/3
              = ((g - b) / (max r (max g b) - min r (min g b)) / 6 + 1/3) + 1 by ring,
            hls_v_add_one, hls_v_eval_mid (by linarith) (by linarith)]
          exact hrmax.symm
        · -- green channel
          rw [hls_v_eval_top (by linarith) (by linarith)]
          exact hmeq
        · -- blue channel
          rw [show (g - b) / (max r (max g b) - min r (min g b)) / 6 + 1 - 1/3
              = (g - b) / (max r (max g b) - min r (min g b)) / 6 + 2/3 by ring,
            hls_v_eval_hi (by linarith) (by linarith),
            show (2:ℚ)/3 - ((g - b) / (max r (max g b) - min r (min g b)) / 6 + 2/3)
              = -((g - b) / (max r (max g b) - min r (min g b)) / 6) by ring]
          rw [hmeq] at hR ⊢
          field_simp
          ring
    · by_cases hgmax : g = max r (max g b)
      · -- green is the (first) maximal channel
        rw [rgb_to_hls_h_gmax hmm hrmax hgmax, hls_to_rgb_eval _ _ _ hm0 hmM hM1]
        have hrlt : r < max r (max g b) := lt_of_le_of_ne hrM hrmax
        have hgbv : min g b = b := min_eq_right (by rw [hgmax]; exact hbM)
        have hmgb : min r (min g b) = min r b := by rw [hgbv]
        have hq1 : (b - r) / (max r (max g b) - min r (min g b)) ≤ 1 := by
          rw [div_le_one hR]; linarith
        have hqm1 : -1 < (b - r) / (max r (max g b) - min r (min g b)) := by
          rw [lt_div_iff₀ hR]; linarith
        rw [fract_eq_self_of (by linarith) (by linarith)]
        simp only [Prod.mk.injEq]
        refine ⟨?_, ?_, ?_⟩
        · -- red channel
          by_cases hrb : r ≤ b
          · have hmeq : min r (min g b) = r := by rw [hmgb]; exact min_eq_left hrb
            have hq0 : 0 ≤ (b - r) / (max r (max g b) - min r (min g b)) :=
              div_nonneg (by linarith) hR.le
            rw [hls_v_eval_top (by linarith) (by linarith)]
            exact hmeq
          · have hbr : b < r := not_le.mp hrb
            have hmeq : min r (min g b) = b := by rw [hmgb]; exact min_eq_right hbr.le
            have hqneg : (b - r) / (max r (max g b) - min r (min g b)) < 0 :=
              div_neg_of_neg_of_pos (by linarith) hR
            rw [hls_v_eval_hi (by linarith) (by linarith),
              show (2:ℚ)/3 - ((2 + (b - r) / (max r (max g b) - min r (min g b))) / 6 + 1/3)
                = -((b - r) / (max r (max g b) - min r (min g b)) / 6) by ring]
            rw [hmeq] at hR ⊢
            field_simp
            ring
        · -- green channel
          by_cases hql : (b - r) / (max r (max g b) - min r (min g b)) < 1
          · rw [hls_v_eval_mid (by linarith) (by linarith)]
            exact hgmax.symm
          · have hq1e : (b - r) / (max r (max g b) - min r (min g b)) = 1 :=
              le_antisymm hq1 (not_lt.mp hql)
            rw [hls_v_eval_hi (by rw [hq1e]; norm_num) (by rw [hq1e]; norm_num), hq1e,
              ← hgmax]
            ring
        · -- blue channel
          rw [show (2 + (b - r) / (max r (max g b) - min r (min g b))) / 6 - 1/3
              = (b - r) / (max r (max g b) - min r (min g b)) / 6 by ring]
          by_cases hrb : r ≤ b
          · have hmeq : min r (min g b) = r := by rw [hmgb]; exact min_eq_left hrb
            have hq0 : 0 ≤ (b - r) / (max r (max g b) - min r (min g b)) :=
              div_nonneg (by linarith) hR.le
            by_cases hql : (b - r) / (max r (max g b) - min r (min g b)) < 1
            · rw [hls_v_eval_lo (by linarith) (by linarith), hls_v_lin _ _ _ hRne, hmeq]
              ring
            · have hq1e : (b - r) / (max r (max g b) - min r (min g b)) = 1 :=
                le_antisymm hq1 (not_lt.mp hql)
              have hq1f : b - r = max r (max g b) - min r (min g b) :=
                (div_eq_one_iff_eq hRne).mp hq1e
              rw [hls_v_eval_mid (by rw [hq1e]; try norm_num) (by rw [hq1e]; try norm_num)]
              linarith
          · have hbr : b < r := not_le.mp hrb
            have hmeq : min r (min g b) = b := by rw [hmgb]; exact min_eq_right hbr.le
            have hqneg : (b - r) / (max r (max g b) - min r (min g b)) < 0 :=
              div_neg_of_neg_of_pos (by linarith) hR
            rw [show (b - r) / (max r (max g b) - min r (min g b)) / 6
                = ((b - r) / (max r (max g b) - min r (min g b)) / 6 + 1) - 1 by ring,
              hls_v_sub_one, hls_v_eval_top (by linarith) (by linarith)]
            exact hmeq
      · -- blue is the maximal channel
        have hbmax : b = max r (max g b) := by
          rcases max_choice r (max g b) with h | h
          · exact absurd h.symm hrmax
          · rcases max_choice g b with h2 | h2
            · exact absurd (h.trans h2).symm hgmax
            · exact (h.trans h2).symm
        rw [rgb_to_hls_h_bmax hmm hrmax hgmax, hls_to_rgb_eval _ _ _ hm0 hmM hM1]
        have hrlt : r < max r (max g b) := lt_of_le_of_ne hrM hrmax
        have hglt : g < max r (max g b) := lt_of_le_of_ne hgM hgmax
        have hgbv : min g b = g := min_eq_left (by rw [hbmax]; exact hgM)
        have hmgb : min r (min g b) = min r g := by rw [hgbv]
        have hql : (r - g) / (max r (max g b) - min r (min g b)) < 1 := by
          rw [div_lt_one hR]; linarith
        have hqm1 : -1 < (r - g) / (max r (max g b) - min r (min g b)) := by
          rw [lt_div_iff₀ hR]; linarith
        rw [fract_eq_self_of (by linarith) (by linarith)]
        simp only [Prod.mk.injEq]
        refine ⟨?_, ?_, ?_⟩
        · -- red channel
          by_cases hgr : g ≤ r
          · have hmeq : min r (min g b) = g := by rw [hmgb]; exact min_eq_right hgr
            have hq0 : 0 ≤ (r - g) / (max r (max g b) - min r (min g b)) :=
              div_nonneg (by linarith) hR.le
            rw [show (4 + (r - g) / (max r (max g b) - min r (min g b))) / 6 + 1/3
                = ((r - g) / (max r (max g b) - min r (min g b)) / 6) + 1 by ring,
              hls_v_add_one, hls_v_eval_lo (by linarith) (by linarith),
              hls_v_lin _ _ _ hRne, hmeq]
            ring
          · have hrg : r < g := not_le.mp hgr
            have hmeq : min r (min g b) = r := by rw [hmgb]; exact min_eq_left hrg.le
            have hqneg : (r - g) / (max r (max g b) - min r (min g b)) < 0 :=
              div_neg_of_neg_of_pos (by linarith) hR
            rw [show (4 + (r - g) / (max r (max g b) - min r (min g b))) / 6 + 1/3
                = (r - g) / (max r (max g b) - min r (min g b)) / 6 + 1 by ring,
              hls_v_eval_top (by linarith) (by linarith)]
            exact hmeq
        · -- green channel
          by_cases hgr : g ≤ r
          · have hmeq : min r (min g b) = g := by rw [hmgb]; exact min_eq_right hgr
            have hq0 : 0 ≤ (r - g) / (max r (max g b) - min r (min g b)) :=
              div_nonneg (by linarith) hR.le
            rw [hls_v_eval_top (by linarith) (by linarith)]
            exact hmeq
          · have hrg : r < g := not_le.mp hgr
            have hmeq : min r (min g b) = r := by rw [hmgb]; exact min_eq_left hrg.le
            have hqneg : (r - g) / (max r (max g b) - min r (min g b)) < 0 :=
              div_neg_of_neg_of_pos (by linarith) hR
            rw [hls_v_eval_hi (by linarith) (by linarith),
              show (2:ℚ)/3 - (4 + (r - g) / (max r (max g b) - min r (min g b))) / 6
                = -((r - g) / (max r (max g b) - min r (min g b)) / 6) by ring]
            rw [hmeq] at hR ⊢
            field_simp
            ring
        · -- blue channel
          rw [show (4 + (r - g) / (max r (max g b) - min r (min g b))) / 6 - 1/3
              = (2 + (r - g) / (max r (max g b) - min r (min g b))) / 6 by ring,
            hls_v_eval_mid (by linarith) (by linarith)]
          exact hbmax.symm

/-- Python `round` is the identity on integers (helper). -/
theorem pyround_intCast (n : ℤ) : pyround ((n : ℚ)) = n := by
  unfold pyround
  rw [Int.fract_intCast, Int.floor_intCast]
  norm_num

/-- The hue produced by `rgb_to_hls` lies in `[0, 1)` (helper). -/
theorem rgb_to_hls_hue_mem (r g b : ℚ) :
    0 ≤ (rgb_to_hls r g b).1 ∧ (rgb_to_hls r g b).1 < 1 := by
  by_cases hmm : min r (min g b) = max r (max g b)
  · rw [rgb_to_hls_gray hmm]
    norm_num
  · simp only [rgb_to_hls]
    rw [if_neg hmm]
    exact ⟨Int.fract_nonneg _, Int.fract_lt_one _⟩

/-- `hls_to_rgb` only sees the hue modulo one (helper). -/
theorem hls_to_rgb_add_one (h l s : ℚ) : hls_to_rgb (h + 1) l s = hls_to_rgb h l s := by
  simp only [hls_to_rgb]
  by_cases hs : s = 0
  · rw [if_pos hs, if_pos hs]
  · rw [if_neg hs, if_neg hs,
      show h + 1 + 1/3 = (h + 1/3) + 1 by ring,
      show h + 1 - 1/3 = (h - 1/3) + 1 by ring,
      hls_v_add_one, hls_v_add_one, hls_v_add_one]

/-- At hue weight `1` the `blend` hue computation returns the first hue,
possibly shifted by one full turn (helper). -/
theorem hue_interp_one {h1 h2 : ℚ} (h10 : 0 ≤ h1) (h11 : h1 < 1)
    (h20 : 0 ≤ h2) (h21 : h2 < 1) :
    hue_interp h1 h2 1 = h1 ∨ hue_interp h1 h2 1 = h1 + 1 := by
  simp only [hue_interp]
  rcases abs_cases (h2 - h1) with ⟨hae, has⟩ | ⟨hae, has⟩ <;>
    rw [hae] <;>
    split_ifs <;>
    first
      | (left; linarith)
      | (right; linarith)

/-- At hue weight `0` the `blend` hue computation returns the second hue
(helper). -/
theorem hue_interp_zero {h1 h2 : ℚ} (h10 : 0 ≤ h1) (h11 : h1 < 1)
    (h20 : 0 ≤ h2) (h21 : h2 < 1) :
    hue_interp h1 h2 0 = h2 := by
  simp only [hue_interp]
  rcases abs_cases (h2 - h1) with ⟨hae, has⟩ | ⟨hae, has⟩ <;>
    rw [hae] <;>
    split_ifs <;>
    linarith


/-- Rational channel bounds helper. -/
theorem chan_bounds {y : ℤ} (h1 : 0 ≤ y) (h2 : y ≤ 255) :
    0 ≤ (y : ℚ) / 255 ∧ (y : ℚ) / 255 ≤ 1 := by
  constructor
  · apply div_nonneg _ (by norm_num)
    exact_mod_cast h1
  · rw [div_le_one (by norm_num)]
    exact_mod_cast h2

/-- `blend` at weights `(1,1,1)` returns the foreground colour (helper). -/
theorem blend_alpha_one (c bg : ℤ) (hc0 : 0 ≤ c) (hc1 : c < 16777216) :
    blend c bg 1 1 1 = c := by
  obtain ⟨⟨hr0, hr1⟩, ⟨hg0, hg1⟩, ⟨hb0, hb1⟩⟩ := int2rgb_bounds c
  have hrt := hls_rgb_roundtrip (((int2rgb c).1 : ℚ) / 255) (((int2rgb c).2.1 : ℚ) / 255)
    (((int2rgb c).2.2 : ℚ) / 255) (chan_bounds hr0 hr1).1 (chan_bounds hr0 hr1).2
    (chan_bounds hg0 hg1).1 (chan_bounds hg0 hg1).2
    (chan_bounds hb0 hb1).1 (chan_bounds hb0 hb1).2
  simp only [blend, blendEff]
  set hls1 := rgb_to_hls (((int2rgb c).1 : ℚ) / 255) (((int2rgb c).2.1 : ℚ) / 255)
    (((int2rgb c).2.2 : ℚ) / 255) with hhls1
  set hls2 := rgb_to_hls (((int2rgb bg).1 : ℚ) / 255) (((int2rgb bg).2.1 : ℚ) / 255)
    (((int2rgb bg).2.2 : ℚ) / 255) with hhls2
  have h1mem := rgb_to_hls_hue_mem (((int2rgb c).1 : ℚ) / 255) (((int2rgb c).2.1 : ℚ) / 255)
    (((int2rgb c).2.2 : ℚ) / 255)
  have h2mem := rgb_to_hls_hue_mem (((int2rgb bg).1 : ℚ) / 255) (((int2rgb bg).2.1 : ℚ) / 255)
    (((int2rgb bg).2.2 : ℚ) / 255)
  rw [← hhls1] at h1mem
  rw [← hhls2] at h2mem
  have hL : (1 : ℚ) * hls1.2.1 + (1 - 1) * hls2.2.1 = hls1.2.1 := by ring
  have hS : (1 : ℚ) * hls1.2.2 + (1 - 1) * hls2.2.2 = hls1.2.2 := by ring
  rw [hL, hS]
  have hH1mem : 0 ≤ (if hls1.2.2 = 0 then hls2.1 else hls1.1) ∧
      (if hls1.2.2 = 0 then hls2.1 else hls1.1) < 1 := by
    split_ifs
    · exact h2mem
    · exact h1mem
  have hH2mem : 0 ≤ (if hls2.2.2 = 0 then (if hls1.2.2 = 0 then hls2.1 else hls1.1)
        else hls2.1) ∧
      (if hls2.2.2 = 0 then (if hls1.2.2 = 0 then hls2.1 else hls1.1) else hls2.1) < 1 := by
    by_cases h2z : hls2.2.2 = 0
    · rw [if_pos h2z]
      exact hH1mem
    · rw [if_neg h2z]
      exact h2mem
  have hmain : hls_to_rgb (hue_interp (if hls1.2.2 = 0 then hls2.1 else hls1.1)
      (if hls2.2.2 = 0 then (if hls1.2.2 = 0 then hls2.1 else hls1.1) else hls2.1) 1)
      hls1.2.1 hls1.2.2
      = (((int2rgb c).1 : ℚ) / 255, ((int2rgb c).2.1 : ℚ) / 255,
        ((int2rgb c).2.2 : ℚ) / 255) := by
    by_cases hs1 : hls1.2.2 = 0
    · rw [hs1] at hrt ⊢
      unfold hls_to_rgb at hrt ⊢
      rw [if_pos rfl] at hrt ⊢
      exact hrt
    · rcases hue_interp_one hH1mem.1 hH1mem.2 hH2mem.1 hH2mem.2 with he | he
      · rw [he, if_neg hs1]
        exact hrt
      · rw [he, if_neg hs1, hls_to_rgb_add_one]
        exact hrt
  rw [hmain]
  dsimp only
  rw [div_mul_cancel₀ _ (by norm_num : (255:ℚ) ≠ 0),
    div_mul_cancel₀ _ (by norm_num : (255:ℚ) ≠ 0),
    div_mul_cancel₀ _ (by norm_num : (255:ℚ) ≠ 0),
    pyround_intCast, pyround_intCast, pyround_intCast]
  exact rgb2int_int2rgb c hc0 hc1

/-- `blend` at weights `(0,0,0)` returns the background colour (helper). -/
theorem blend_alpha_zero (c bg : ℤ) (hb0' : 0 ≤ bg) (hb1' : bg < 16777216) :
    blend c bg 0 0 0 = bg := by
  obtain ⟨⟨hr0, hr1⟩, ⟨hg0, hg1⟩, ⟨hb0, hb1⟩⟩ := int2rgb_bounds bg
  have hrt := hls_rgb_roundtrip (((int2rgb bg).1 : ℚ) / 255) (((int2rgb bg).2.1 : ℚ) / 255)
    (((int2rgb bg).2.2 : ℚ) / 255) (chan_bounds hr0 hr1).1 (chan_bounds hr0 hr1).2
    (chan_bounds hg0 hg1).1 (chan_bounds hg0 hg1).2
    (chan_bounds hb0 hb1).1 (chan_bounds hb0 hb1).2
  simp only [blend, blendEff]
  set hls1 := rgb_to_hls (((int2rgb c).1 : ℚ) / 255) (((int2rgb c).2.1 : ℚ) / 255)
    (((int2rgb c).2.2 : ℚ) / 255) with hhls1
  set hls2 := rgb_to_hls (((int2rgb bg).1 : ℚ) / 255) (((int2rgb bg).2.1 : ℚ) / 255)
    (((int2rgb bg).2.2 : ℚ) / 255) with hhls2
  have h1mem := rgb_to_hls_hue_mem (((int2rgb c).1 : ℚ) / 255) (((int2rgb c).2.1 : ℚ) / 255)
    (((int2rgb c).2.2 : ℚ) / 255)
  have h2mem := rgb_to_hls_hue_mem (((int2rgb bg).1 : ℚ) / 255) (((int2rgb bg).2.1 : ℚ) / 255)
    (((int2rgb bg).2.2 : ℚ) / 255)
  rw [← hhls1] at h1mem
  rw [← hhls2] at h2mem
  have hL : (0 : ℚ) * hls1.2.1 + (1 - 0) * hls2.2.1 = hls2.2.1 := by ring
  have hS : (0 : ℚ) * hls1.2.2 + (1 - 0) * hls2.2.2 = hls2.2.2 := by ring
  rw [hL, hS]
  have hH1mem : 0 ≤ (if hls1.2.2 = 0 then hls2.1 else hls1.1) ∧
      (if hls1.2.2 = 0 then hls2.1 else hls1.1) < 1 := by
    split_ifs
    · exact h2mem
    · exact h1mem
  have hH2mem : 0 ≤ (if hls2.2.2 = 0 then (if hls1.2.2 = 0 then hls2.1 else hls1.1)
        else hls2.1) ∧
      (if hls2.2.2 = 0 then (if hls1.2.2 = 0 then hls2.1 else hls1.1) else hls2.1) < 1 := by
    by_cases h2z : hls2.2.2 = 0
    · rw [if_pos h2z]
      exact hH1mem
    · rw [if_neg h2z]
      exact h2mem
  have hmain : hls_to_rgb (hue_interp (if hls1.2.2 = 0 then hls2.1 else hls1.1)
      (if hls2.2.2 = 0 then (if hls1.2.2 = 0 then hls2.1 else hls1.1) else hls2.1) 0)
      hls2.2.1 hls2.2.2
      = (((int2rgb bg).1 : ℚ) / 255, ((int2rgb bg).2.1 : ℚ) / 255,
        ((int2rgb bg).2.2 : ℚ) / 255) := by
    rw [hue_interp_zero hH1mem.1 hH1mem.2 hH2mem.1 hH2mem.2]
    by_cases hs2 : hls2.2.2 = 0
    · rw [hs2] at hrt ⊢
      unfold hls_to_rgb at hrt ⊢
      rw [if_pos rfl] at hrt ⊢
      exact hrt
    · rw [if_neg hs2]
      exact hrt
  rw [hmain]
  dsimp only
  rw [div_mul_cancel₀ _ (by norm_num : (255:ℚ) ≠ 0),
    div_mul_cancel₀ _ (by norm_num : (255:ℚ) ≠ 0),
    div_mul_cancel₀ _ (by norm_num : (255:ℚ) ≠ 0),
    pyround_intCast, pyround_intCast, pyround_intCast]
  exact rgb2int_int2rgb bg hb0' hb1'

/-- C3: for every pair of packed colours (channels in `[0,255]`), `blend`
at the weight extremes returns the pure endpoints:
`blend c bg 1 1 1 = c` and `blend c bg 0 0 0 = bg`. -/
theorem blend_weight_extremes (c bg : ℤ)
    (hc0 : 0 ≤ c) (hc1 : c ≤ 16777215) (hb0 : 0 ≤ bg) (hb1 : bg ≤ 16777215) :
    blend c bg 1 1 1 = c ∧ blend c bg 0 0 0 = bg :=
  ⟨blend_alpha_one c bg hc0 (by linarith), blend_alpha_zero c bg hb0 (by linarith)⟩

/-- Witness for C3 at a concrete pair of colours. -/
theorem blend_weight_extremes_witness :
    blend 15560 7864520 1 1 1 = 15560 ∧ blend 15560 7864520 0 0 0 = 7864520 :=
  blend_weight_extremes 15560 7864520 (by norm_num) (by norm_num)
    (by norm_num) (by norm_num)


/-- Circular distance between two points of the `[0,1)` hue wheel
(formalises the claim language for C2). -/
def circDist (x y : ℚ) : ℚ := min |x - y| (1 - |x - y|)

/-- `h` lies on the shorter of the two circular arcs joining `h1` and `h2`
on the `[0,1)` hue wheel: the circular distances add up exactly. -/
def onShortArc (h1 h2 h : ℚ) : Prop :=
  circDist h1 h + circDist h h2 = circDist h1 h2

/-- The hues stored by `blendEff` are in `[0, 1)` (helper). -/
theorem blendEff_hue_mem (c bg : ℤ) :
    (0 ≤ (blendEff c bg).1.1 ∧ (blendEff c bg).1.1 < 1) ∧
    (0 ≤ (blendEff c bg).2.1 ∧ (blendEff c bg).2.1 < 1) := by
  simp only [blendEff]
  refine ⟨?_, ?_⟩ <;> dsimp only <;> split_ifs <;>
    exact rgb_to_hls_hue_mem _ _ _

/-- The hue computed by `blend` always lies on the shorter circular arc
between the two (grey-adjusted) endpoint hues (core lemma for C2). -/
theorem hue_interp_shortarc {h1 h2 a : ℚ} (h10 : 0 ≤ h1) (h11 : h1 < 1)
    (h20 : 0 ≤ h2) (h21 : h2 < 1) (ha0 : 0 ≤ a) (ha1 : a ≤ 1) :
    onShortArc h1 h2 (hue_interp h1 h2 a) := by
  unfold onShortArc
  simp only [hue_interp]
  by_cases hbig : 1/2 < |h2 - h1|
  · rw [if_pos hbig]
    by_cases hneg : h2 - h1 < 0
    · rw [if_pos hneg]
      rw [abs_of_neg hneg] at hbig ⊢
      have hr0 : 0 ≤ 1 - -(h2 - h1) := by linarith
      have hr1 : 1 - -(h2 - h1) ≤ 1/2 := by linarith
      have hp0 : 0 ≤ (1 - -(h2 - h1)) * a := mul_nonneg hr0 ha0
      have hp1 : (1 - -(h2 - h1)) * a ≤ 1 - -(h2 - h1) := mul_le_of_le_one_right hr0 ha1
      by_cases hw : h2 - 1 * (1 - -(h2 - h1)) * a < 0
      · rw [if_pos hw,
          if_neg (show ¬ 1 < h2 - 1 * (1 - -(h2 - h1)) * a + 1 by push_neg; linarith)]
        set X := h2 - 1 * (1 - -(h2 - h1)) * a + 1 with hX
        have b1 : h1 ≤ X := by rw [hX]; linarith
        have b2 : X - h1 ≤ 1/2 := by rw [hX]; linarith
        have b3 : h2 ≤ X := by rw [hX]; linarith
        have b4 : 1/2 ≤ X - h2 := by rw [hX]; linarith
        unfold circDist
        rw [abs_of_nonpos (show h1 - X ≤ 0 by linarith),
          abs_of_nonneg (show 0 ≤ X - h2 by linarith),
          abs_of_nonneg (show 0 ≤ h1 - h2 by linarith)]
        rw [min_eq_left (by linarith), min_eq_right (by linarith),
          min_eq_right (by linarith)]
        ring
      · rw [if_neg hw,
          if_neg (show ¬ 1 < h2 - 1 * (1 - -(h2 - h1)) * a by push_neg; linarith)]
        set X := h2 - 1 * (1 - -(h2 - h1)) * a with hX
        have b1 : X ≤ h2 := by rw [hX]; linarith
        have b2 : h2 - X ≤ 1/2 := by rw [hX]; linarith
        have b3 : 1/2 ≤ h1 - X := by rw [hX]; linarith
        have b4 : h1 - X ≤ 1 := by rw [hX]; linarith
        unfold circDist
        rw [abs_of_nonneg (show 0 ≤ h1 - X by linarith),
          abs_of_nonpos (show X - h2 ≤ 0 by linarith),
          abs_of_nonneg (show 0 ≤ h1 - h2 by linarith)]
        rw [min_eq_right (by linarith), min_eq_left (by linarith),
          min_eq_right (by linarith)]
        ring
    · rw [if_neg hneg]
      have hd2 : 0 ≤ h2 - h1 := not_lt.mp hneg
      rw [abs_of_nonneg hd2] at hbig ⊢
      have hr0 : 0 ≤ 1 - (h2 - h1) := by linarith
      have hr1 : 1 - (h2 - h1) ≤ 1/2 := by linarith
      have hp0 : 0 ≤ (1 - (h2 - h1)) * a := mul_nonneg hr0 ha0
      have hp1 : (1 - (h2 - h1)) * a ≤ 1 - (h2 - h1) := mul_le_of_le_one_right hr0 ha1
      rw [if_neg (show ¬ h2 - -1 * (1 - (h2 - h1)) * a < 0 by push_neg; linarith)]
      by_cases hw2 : 1 < h2 - -1 * (1 - (h2 - h1)) * a
      · rw [if_pos hw2]
        set X := h2 - -1 * (1 - (h2 - h1)) * a - 1 with hX
        have b1 : X ≤ h1 := by rw [hX]; linarith
        have b2 : h1 - X ≤ 1/2 := by rw [hX]; linarith
        have b3 : 1/2 ≤ h2 - X := by rw [hX]; linarith
        have b4 : h2 - X ≤ 1 := by rw [hX]; linarith
        unfold circDist
        rw [abs_of_nonneg (show 0 ≤ h1 - X by linarith),
          abs_of_nonpos (show X - h2 ≤ 0 by linarith),
          abs_of_nonpos (show h1 - h2 ≤ 0 by linarith)]
        rw [min_eq_left (by linarith), min_eq_right (by linarith),
          min_eq_right (by linarith)]
        ring
      · rw [if_neg hw2]
        set X := h2 - -1 * (1 - (h2 - h1)) * a with hX
        have b1 : h2 ≤ X := by rw [hX]; linarith
        have b2 : X - h2 ≤ 1/2 := by rw [hX]; linarith
        have b3 : 1/2 ≤ X - h1 := by rw [hX]; linarith
        have b4 : X - h1 ≤ 1 := by rw [hX]; linarith
        unfold circDist
        rw [abs_of_nonpos (show h1 - X ≤ 0 by linarith),
          abs_of_nonneg (show 0 ≤ X - h2 by linarith),
          abs_of_nonpos (show h1 - h2 ≤ 0 by linarith)]
        rw [min_eq_right (by linarith), min_eq_left (by linarith),
          min_eq_right (by linarith)]
        ring
  · rw [if_neg hbig]
    push_neg at hbig
    rcases le_or_lt h1 h2 with hd | hd
    · rw [abs_of_nonneg (by linarith : (0:ℚ) ≤ h2 - h1)] at hbig
      have hq1 : 0 ≤ (1 - a) * (h2 - h1) := mul_nonneg (by linarith) (by linarith)
      have hq2 : 0 ≤ a * (h2 - h1) := mul_nonneg ha0 (by linarith)
      set X := a * h1 + (1 - a) * h2 with hX
      have b1 : h1 ≤ X := by rw [hX]; linarith
      have b2 : X ≤ h2 := by rw [hX]; linarith
      unfold circDist
      rw [abs_of_nonpos (show h1 - X ≤ 0 by linarith),
        abs_of_nonpos (show X - h2 ≤ 0 by linarith),
        abs_of_nonpos (show h1 - h2 ≤ 0 by linarith)]
      rw [min_eq_left (by linarith), min_eq_left (by linarith),
        min_eq_left (by linarith)]
      ring
    · rw [abs_of_neg (by linarith : h2 - h1 < 0)] at hbig
      have hq1 : 0 ≤ (1 - a) * (h1 - h2) := mul_nonneg (by linarith) (by linarith)
      have hq2 : 0 ≤ a * (h1 - h2) := mul_nonneg ha0 (by linarith)
      set X := a * h1 + (1 - a) * h2 with hX
      have b1 : h2 ≤ X := by rw [hX]; linarith
      have b2 : X ≤ h1 := by rw [hX]; linarith
      unfold circDist
      rw [abs_of_nonneg (show 0 ≤ h1 - X by linarith),
        abs_of_nonneg (show 0 ≤ X - h2 by linarith),
        abs_of_nonneg (show 0 ≤ h1 - h2 by linarith)]
      rw [min_eq_left (by linarith), min_eq_left (by linarith),
        min_eq_left (by linarith)]
      ring

/-- C2: for every pair of packed colours and every hue weight in `[0,1]`,
the hue used by `blend` (computed by `hue_interp` on the grey-adjusted
endpoint hues of `blendEff`) lies on the shorter circular arc between the
two hues; when the raw difference is at most `0.5` it is the direct linear
interpolation. -/
theorem blend_hue_shortest_arc (c bg : ℤ) (alpha_h : ℚ)
    (ha0 : 0 ≤ alpha_h) (ha1 : alpha_h ≤ 1) :
    onShortArc (blendEff c bg).1.1 (blendEff c bg).2.1
      (hue_interp (blendEff c bg).1.1 (blendEff c bg).2.1 alpha_h) ∧
    (|(blendEff c bg).2.1 - (blendEff c bg).1.1| ≤ 1/2 →
      hue_interp (blendEff c bg).1.1 (blendEff c bg).2.1 alpha_h
        = alpha_h * (blendEff c bg).1.1 + (1 - alpha_h) * (blendEff c bg).2.1) := by
  have hm := blendEff_hue_mem c bg
  refine ⟨hue_interp_shortarc hm.1.1 hm.1.2 hm.2.1 hm.2.2 ha0 ha1, ?_⟩
  intro hle
  unfold hue_interp
  rw [if_neg (not_lt.mpr hle)]

/-- Witness for C2 at the concrete colours with hues `0.05` and `0.9`
(an instance of the spec example where the blend passes through `0.0/1.0`). -/
theorem blend_hue_shortest_arc_witness :
    onShortArc (blendEff 15560 7864520).1.1 (blendEff 15560 7864520).2.1
      (hue_interp (blendEff 15560 7864520).1.1 (blendEff 15560 7864520).2.1 (1/2)) :=
  (blend_hue_shortest_arc 15560 7864520 (1/2) (by norm_num) (by norm_num)).1


/-- The fade width `d` of `_renderDayNight` (`genplot.py` line 284):
`120 + 300 * (1 - (90.0 - abs lat) / 90.0)`. -/
def daynight_d (lat : ℚ) : ℚ := 120 + 300 * (1 - (90 - |lat|) / 90)

/-- `last_` of fade iteration `i` (`genplot.py` line 286): the previous
transition, or the left edge of the x-range for the first transition. -/
def prevTransition (xmin : ℚ) (transitions : List ℚ) (i : ℕ) : ℚ :=
  if i = 0 then xmin else transitions.getD (i - 1) 0

/-- `next_` of fade iteration `i` (`genplot.py` line 287): the following
transition, or the right edge of the x-range for the last transition. -/
def nextTransition (xmax : ℚ) (transitions : List ℚ) (i : ℕ) : ℚ :=
  if i < transitions.length - 1 then transitions.getD (i + 1) 0 else xmax

/-- `color1` at fade iteration `i`: starts as the day colour when
`first = "day"` (night otherwise) and the `(color1, color2)` pair is swapped
at the end of every iteration.  The source swaps in place by comparing
`color1` with the configured day colour; since `color1` always holds one of
the two configured colours, the closed parity form below coincides with the
in-place swap (including the degenerate case where both colours are equal). -/
def fadeColor1 (dayColor nightColor : ℤ) (first : String) (i : ℕ) : ℤ :=
  if (first = "day") = (i % 2 = 0) then dayColor else nightColor

/-- `color2` at fade iteration `i`: the counterpart of `fadeColor1`. -/
def fadeColor2 (dayColor nightColor : ℤ) (first : String) (i : ℕ) : ℤ :=
  if (first = "day") = (i % 2 = 0) then nightColor else dayColor

/-- The fade rectangles painted by `_renderDayNight` (`genplot.py` lines
282-301): for each transition index `i` and step `z ∈ range(1, nfade)` the
colour `blend_hls color2 color1 (z/nfade)` and the left edge
`x1 = transitions[i] - d*(nfade+1)/2 + d*z` are computed, and the rectangle
from `x1` to `x1 + d` is painted exactly when `last_ < x1 < next_`.
Each painted rectangle is returned as `(x1, x1 + d, colour)`, in paint
order (the `int2rgbstr` conversion of the colour is pure formatting and is
omitted). -/
def fadeRects (xmin xmax lat : ℚ) (nfade : ℕ) (dayColor nightColor : ℤ)
    (first : String) (transitions : List ℚ) : List (ℚ × ℚ × ℤ) :=
  (List.range transitions.length).flatMap (fun i =>
    (List.range' 1 (nfade - 1)).filterMap (fun z =>
      let c := blend_hls (fadeColor2 dayColor nightColor first i)
        (fadeColor1 dayColor nightColor first i) ((z : ℚ) / (nfade : ℚ))
      let x1 := transitions.getD i 0 - daynight_d lat * ((nfade : ℚ) + 1) / 2
        + daynight_d lat * (z : ℚ)
      if prevTransition xmin transitions i < x1 ∧
          x1 < nextTransition xmax transitions i
      then some (x1, x1 + daynight_d lat, c) else none))

/-- C1 (amended): every painted fade rectangle belongs to some transition
`i` and its LEFT edge `x1` lies strictly between the previous and next
transition; the right edge is `x1 + d` and is not constrained by the guard
(the source only tests `last_ < x1 < next_`). -/
theorem fadeRects_left_edge_between (xmin xmax lat : ℚ) (nfade : ℕ)
    (dayColor nightColor : ℤ) (first : String) (transitions : List ℚ)
    (r : ℚ × ℚ × ℤ)
    (hr : r ∈ fadeRects xmin xmax lat nfade dayColor nightColor first transitions) :
    ∃ i < transitions.length,
      prevTransition xmin transitions i < r.1 ∧
      r.1 < nextTransition xmax transitions i ∧
      r.2.1 = r.1 + daynight_d lat := by
  unfold fadeRects at hr
  rw [List.mem_flatMap] at hr
  obtain ⟨i, hi, hmem⟩ := hr
  rw [List.mem_range] at hi
  rw [List.mem_filterMap] at hmem
  obtain ⟨z, hz, hopt⟩ := hmem
  dsimp only at hopt
  split_ifs at hopt with hcond
  · obtain ⟨h1, h2⟩ := hcond
    obtain heq := Option.some.inj hopt
    subst heq
    exact ⟨i, hi, h1, h2, rfl⟩

/-- Witness for C1 (amended) at a concrete configuration. -/
theorem fadeRects_left_edge_between_witness :
    ∃ i < ([100, 150] : List ℚ).length,
      prevTransition 0 [100, 150] i < ((40 : ℚ), (160 : ℚ), (16316664 : ℤ)).1 ∧
      ((40 : ℚ), (160 : ℚ), (16316664 : ℤ)).1 < nextTransition 300 [100, 150] i ∧
      ((40 : ℚ), (160 : ℚ), (16316664 : ℤ)).2.1
        = ((40 : ℚ), (160 : ℚ), (16316664 : ℤ)).1 + daynight_d 0 :=
  fadeRects_left_edge_between 0 300 0 2 16777215 15790320 "day" [100, 150]
    (40, 160, 16316664) (by
      have hev : fadeRects 0 300 0 2 16777215 15790320 "day" [100, 150]
          = [(40, 160, blend_hls 15790320 16777215 (1/2))] := by
        norm_num [fadeRects, fadeColor1, fadeColor2, prevTransition, nextTransition,
          daynight_d, List.range_succ, List.range_zero, List.range', List.filterMap,
          List.flatMap]
      have hc : blend_hls 15790320 16777215 (1/2) = 16316664 := by
        norm_num [blend_hls, blend, blendEff, int2rgb, rgb_to_hls, hue_interp,
          hls_to_rgb, pyround, rgb2int, Int.fract, Int.floor_eq_iff]
      rw [hev, hc]
      exact List.mem_singleton.mpr rfl)

/-- C1 counterexample: with gradient `nfade = 2`, latitude `0`, x-range
`[0, 300]` and transitions at `100` and `150`, exactly one fade rectangle
is painted, spanning `[40, 160]` for the transition at `100`; its right
edge `160` lies past the next transition `150`, so the full rectangle does
NOT stay strictly between the neighbouring transitions. -/
theorem fadeRects_overlap_counterexample :
    (fadeRects 0 300 0 2 16777215 15790320 "day" [100, 150]).map
        (fun r => (r.1, r.2.1)) = [((40 : ℚ), (160 : ℚ))] ∧
    nextTransition 300 [100, 150] 0 = 150 ∧ (150 : ℚ) < 160 := by
  refine ⟨?_, ?_, by norm_num⟩
  · norm_num [fadeRects, fadeColor1, fadeColor2, prevTransition, nextTransition,
      daynight_d, List.range_succ, List.range_zero, List.range', List.filterMap,
      List.flatMap]
  · norm_num [nextTransition]

/-- `UniDraw.text` (`genplot.py` lines 651-655): try the drawing primitive
on the unicode string; on `UnicodeEncodeError` retry with the UTF-8 byte
encoding of the same string.  The external PIL primitive is a parameter:
`prim` is `ImageDraw.ImageDraw.text` applied to the unicode string and
`primBytes` the same primitive applied to its UTF-8 byte form; `Except.error`
models a raised `UnicodeEncodeError`. -/
def uniDraw_text (prim : String → Except String Unit)
    (primBytes : String → Except String Unit) (s : String) : Except String Unit :=
  match prim s with
  | Except.ok u => Except.ok u
  | Except.error _ => primBytes s

/-- The rose-label text call of `_renderRose` (`genplot.py` lines 476 and
510-515): the rose buffer is drawn through a plain `ImageDraw.Draw`, not a
`UniDraw`, so the primitive is invoked directly, with no retry. -/
def renderRose_text (prim : String → Except String Unit) (s : String) :
    Except String Unit :=
  prim s

/-- C8 (amended): a text call through `UniDraw.text` never surfaces an
encoding failure when the byte-form retry succeeds, but the compass-rose
label is drawn through a plain `ImageDraw` and an encoding failure there
propagates unchanged to the caller: the tolerance is not uniform. -/
theorem uniDraw_text_tolerates_renderRose_does_not
    (prim primBytes : String → Except String Unit) (s : String)
    (hb : ∀ t, (primBytes t).isOk = true) :
    (uniDraw_text prim primBytes s).isOk = true ∧
    renderRose_text prim s = prim s := by
  constructor
  · unfold uniDraw_text
    cases hp : prim s with
    | ok u => rfl
    | error e => exact hb s
  · rfl

/-- Witness for C8 (amended) at a concrete failing primitive. -/
theorem uniDraw_text_tolerates_witness :
    (uniDraw_text (fun _ => (Except.error "UnicodeEncodeError" : Except String Unit))
        (fun _ => Except.ok ()) "N").isOk = true ∧
    renderRose_text (fun _ => (Except.error "UnicodeEncodeError" : Except String Unit)) "N"
      = (fun _ : String => (Except.error "UnicodeEncodeError" : Except String Unit)) "N" :=
  uniDraw_text_tolerates_renderRose_does_not _ _ "N" (fun _ => rfl)

/-- C8 counterexample: with a primitive that raises `UnicodeEncodeError` on
every string (and a byte-form that succeeds), the rose-label call surfaces
the error to the caller while the `UniDraw` path recovers, so NOT every
text-drawing call made during render tolerates the failure. -/
theorem renderRose_text_surfaces_counterexample :
    renderRose_text (fun _ => (Except.error "UnicodeEncodeError" : Except String Unit)) "N"
        = Except.error "UnicodeEncodeError" ∧
    uniDraw_text (fun _ => (Except.error "UnicodeEncodeError" : Except String Unit))
        (fun _ => Except.ok ()) "N" = Except.ok () :=
  ⟨rfl, rfl⟩


/-- A single data series (`PlotLine` in `genplot.py`).  Sample values are
rationals, missing values (`None`) are `none`.  The complex value of a
vector sample is represented by the carrier whose `abs` the y-scaling code
consumes.  Field defaults follow the constructor defaults; `bar_width`
defaults to `None` in the source and must be supplied for a bar line, which
is modelled by an empty list together with nonemptiness hypotheses in the
theorems that touch it. -/
structure PlotLine where
  x : List (Option ℚ)
  y : List (Option ℚ)
  label : String := ""
  plot_type : String := "line"
  line_type : String := "solid"
  marker_type : Option String := none
  marker_size : Option ℚ := some 10
  color : Option ℤ := none
  fill_color : Option ℤ := none
  width : Option ℤ := none
  bar_width : List ℚ := []
  vector_rotate : Option ℚ := none
  line_gap_fraction : Option ℚ := none
  deriving DecidableEq

/-- The `GeneralPlot` state consumed by the methods the claims concern;
only the fields those methods read are modelled.  Palette defaults follow
`genplot.py` (`tobgr` of `0xff0000`, `0x00ff00`, `0x0000ff` and widths
`[1,1,1]`). -/
structure GeneralPlot where
  line_list : List PlotLine := []
  chart_line_colors : List ℤ := [255, 65280, 16711680]
  chart_fill_colors : List ℤ := [255, 65280, 16711680]
  chart_line_widths : List ℤ := [1, 1, 1]
  anti_alias : ℤ := 1
  yscale : Option ℚ × Option ℚ × Option ℚ := (none, none, none)
  y_nticks : ℕ := 10
  deriving DecidableEq

/-- `GeneralPlot.addLine` (`genplot.py` lines 169-176): raise
`weeplot.ViolatedPrecondition` when the x-vector contains a missing value,
otherwise append the line to `line_list`.  Mutation is state-passing: the
first component is the (possibly updated) plot, the second the raised
exception message, `none` when no exception is raised; a raised exception
leaves the object unmodified. -/
def addLine (gp : GeneralPlot) (line : PlotLine) : GeneralPlot × Option String :=
  if none ∈ line.x then
    (gp, some "X vector cannot have any values None")
  else
    ({ gp with line_list := gp.line_list ++ [line] }, none)

/-- C4: `addLine` raises a precondition violation iff the added line's x
sequence contains a missing value; the rejection happens inside `addLine`
itself (accumulation time, before any render step), and the line list is
unchanged on rejection and extended by exactly the new line otherwise. -/
theorem addLine_missing_x (gp : GeneralPlot) (line : PlotLine) :
    ((addLine gp line).2.isSome ↔ none ∈ line.x) ∧
    (addLine gp line).1.line_list
      = (if none ∈ line.x then gp.line_list else gp.line_list ++ [line]) := by
  unfold addLine
  by_cases h : none ∈ line.x
  · rw [if_pos h, if_pos h]
    simp [h]
  · rw [if_neg h, if_neg h]
    simp [h]

/-- Modelled from the spec: `weeutil.weeutil.min_with_none` is not under
`src/`; per the spec it computes the minimum across possibly-missing
values while "treating missing values as absent", returning `none` when
no value is present. -/
def min_with_none (xs : List (Option ℚ)) : Option ℚ :=
  xs.foldl (fun acc v =>
    match acc, v with
    | none, w => w
    | some a, none => some a
    | some a, some b => some (min a b)) none

/-- Modelled from the spec: `weeutil.weeutil.max_with_none`, dually. -/
def max_with_none (xs : List (Option ℚ)) : Option ℚ :=
  xs.foldl (fun acc v =>
    match acc, v with
    | none, w => w
    | some a, none => some a
    | some a, some b => some (max a b)) none

/-- Folding the `min_with_none` step from a present accumulator (helper). -/
theorem min_with_none_go (xs : List (Option ℚ)) (a : ℚ) :
    xs.foldl (fun acc v =>
      match acc, v with
      | none, w => w
      | some a, none => some a
      | some a, some b => some (min a b)) (some a)
      = some ((xs.filterMap id).foldl min a) := by
  induction xs generalizing a with
  | nil => rfl
  | cons hd tl ih =>
    cases hd with
    | none => simpa using ih a
    | some b => simpa using ih (min a b)

/-- `min_with_none` is the minimum of the present values (helper). -/
theorem min_with_none_eq (xs : List (Option ℚ)) :
    min_with_none xs = (xs.filterMap id).min? := by
  unfold min_with_none
  induction xs with
  | nil => rfl
  | cons hd tl ih =>
    cases hd with
    | none => simpa using ih
    | some b =>
      rw [List.foldl_cons]
      show List.foldl _ (some b) tl = _
      rw [min_with_none_go tl b]
      have hfm : List.filterMap id (some b :: tl) = b :: List.filterMap id tl := by simp
      rw [hfm]
      rfl


/-- Folding the `max_with_none` step from a present accumulator (helper). -/
theorem max_with_none_go (xs : List (Option ℚ)) (a : ℚ) :
    xs.foldl (fun acc v =>
      match acc, v with
      | none, w => w
      | some a, none => some a
      | some a, some b => some (max a b)) (some a)
      = some ((xs.filterMap id).foldl max a) := by
  induction xs generalizing a with
  | nil => rfl
  | cons hd tl ih =>
    cases hd with
    | none => simpa using ih a
    | some b => simpa using ih (max a b)

/-- `max_with_none` is the maximum of the present values (helper). -/
theorem max_with_none_eq (xs : List (Option ℚ)) :
    max_with_none xs = (xs.filterMap id).max? := by
  unfold max_with_none
  induction xs with
  | nil => rfl
  | cons hd tl ih =>
    cases hd with
    | none => simpa using ih
    | some b =>
      rw [List.foldl_cons]
      show List.foldl _ (some b) tl = _
      rw [max_with_none_go tl b]
      have hfm : List.filterMap id (some b :: tl) = b :: List.filterMap id tl := by simp
      rw [hfm]
      rfl

/-- The per-line y extremes of `_calcYScaling` (`genplot.py` lines 538-547):
for a vector line the extreme magnitudes (with `ValueError` on an empty
magnitude sequence caught to `None`), otherwise `min_with_none` /
`max_with_none` of the y values. -/
def ylineLimits (line : PlotLine) : Option ℚ × Option ℚ :=
  if line.plot_type = "vector" then
    let yline_max := ((line.y.filterMap id).map (fun v => |v|)).max?
    (yline_max.map (fun m => -m), yline_max)
  else (min_with_none line.y, max_with_none line.y)

/-- One iteration of the `_calcYScaling` accumulation loop
(`genplot.py` lines 548-549). -/
def yminmaxStep (acc : Option ℚ × Option ℚ) (line : PlotLine) :
    Option ℚ × Option ℚ :=
  (min_with_none [acc.1, (ylineLimits line).1],
   max_with_none [acc.2, (ylineLimits line).2])

/-- `GeneralPlot._calcYScaling` (`genplot.py` lines 530-555), state-passing:
returns the resolved y-scale triple.  The external nice-number collaborator
`weeplot.utilities.scale` is the parameter `scaleFn`, called exactly as the
source does with the observed extremes, the caller-supplied partial scale
and the tick count; when both accumulated extremes are `None` the fixed
fallback scale `(0.0, 1.0, 0.2)` is used instead. -/
def calcYScaling (gp : GeneralPlot)
    (scaleFn : Option ℚ → Option ℚ → (Option ℚ × Option ℚ × Option ℚ) → ℕ → ℚ × ℚ × ℚ) :
    ℚ × ℚ × ℚ :=
  let mm := gp.line_list.foldl yminmaxStep (none, none)
  if mm.1 = none ∧ mm.2 = none then (0, 1, 1/5)
  else scaleFn mm.1 mm.2 gp.yscale gp.y_nticks

/-- A line whose y values are all missing contributes no extremes (helper). -/
theorem ylineLimits_all_none {line : PlotLine} (h : ∀ v ∈ line.y, v = none) :
    ylineLimits line = (none, none) := by
  have hfm : line.y.filterMap id = [] := by
    rw [List.filterMap_eq_nil_iff]
    intro a ha
    simpa using h a ha
  unfold ylineLimits
  split_ifs
  · rw [hfm]
    rfl
  · rw [min_with_none_eq, max_with_none_eq, hfm]
    rfl

/-- The y-extreme accumulation stays empty over all-missing lines (helper). -/
theorem foldl_yminmax_none (ls : List PlotLine)
    (h : ∀ l ∈ ls, ∀ v ∈ l.y, v = none) :
    ls.foldl yminmaxStep (none, none) = (none, none) := by
  induction ls with
  | nil => rfl
  | cons hd tl ih =>
    rw [List.foldl_cons]
    have hstep : yminmaxStep (none, none) hd = (none, none) := by
      unfold yminmaxStep
      rw [ylineLimits_all_none (h hd (by simp))]
      rfl
    rw [hstep]
    exact ih (fun l hl v hv => h l (by simp [hl]) v hv)

/-- C5: if every line's y values are all missing (in particular when there
are no lines at all), `_calcYScaling` falls back to the fixed scale
`(0.0, 1.0, 0.2)` for every possible behaviour of the external scale
collaborator, and returns without error. -/
theorem calcYScaling_fallback (gp : GeneralPlot)
    (scaleFn : Option ℚ → Option ℚ → (Option ℚ × Option ℚ × Option ℚ) → ℕ → ℚ × ℚ × ℚ)
    (h : ∀ line ∈ gp.line_list, ∀ v ∈ line.y, v = none) :
    calcYScaling gp scaleFn = (0, 1, 1/5) := by
  simp only [calcYScaling]
  rw [foldl_yminmax_none gp.line_list h]
  norm_num

/-- Witness for C5: a vector line and a plain line, both with only missing
y values, under an arbitrary concrete scale collaborator. -/
theorem calcYScaling_fallback_witness :
    calcYScaling
      { line_list := [
          { x := [some 1], y := [none], plot_type := "vector" },
          { x := [some 1, some 2], y := [none, none] }] }
      (fun _ _ _ _ => (7, 8, 9)) = (0, 1, 1/5) :=
  calcYScaling_fallback _ _ (by decide)


/-- The per-line x minimum of `_calcXMinMax` (`genplot.py` lines 576-581):
`min_with_none(line.x)`, reduced by the first bar width for a bar line
(`xline_min - line.bar_width[0]`; `none` propagates where Python would
raise on missing data, a case excluded by the theorems' hypotheses). -/
def xlineMin (line : PlotLine) : Option ℚ :=
  if line.plot_type = "bar" then
    (min_with_none line.x).map (fun m => m - line.bar_width.headD 0)
  else min_with_none line.x

/-- One iteration of the `_calcXMinMax` loop (`genplot.py` lines 575-583). -/
def xminmaxStep (acc : Option ℚ × Option ℚ) (line : PlotLine) :
    Option ℚ × Option ℚ :=
  (min_with_none [acc.1, xlineMin line],
   max_with_none [acc.2, max_with_none line.x])

/-- `GeneralPlot._calcXMinMax` (`genplot.py` lines 573-584): the raw
(pre-nice-number) x extremes across all series. -/
def calcXMinMax (lines : List PlotLine) : Option ℚ × Option ℚ :=
  lines.foldl xminmaxStep (none, none)

/-- The claim language of C6: a series' own minimum x, a bar series'
minimum first reduced by that series' first bar width. -/
def seriesXMin (l : PlotLine) : ℚ :=
  ((l.x.filterMap id).min?).getD 0
    - (if l.plot_type = "bar" then l.bar_width.headD 0 else 0)

/-- The claim language of C6: the minimum over all series of the adjusted
per-series minima. -/
def specChartXMin (lines : List PlotLine) : Option ℚ :=
  (lines.map seriesXMin).min?

/-- The first component of the `_calcXMinMax` fold ignores the second
(helper). -/
theorem calcXMinMax_fst (lines : List PlotLine) (acc : Option ℚ × Option ℚ) :
    (lines.foldl xminmaxStep acc).1
      = lines.foldl (fun a l => min_with_none [a, xlineMin l]) acc.1 := by
  induction lines generalizing acc with
  | nil => rfl
  | cons hd tl ih =>
    rw [List.foldl_cons, List.foldl_cons, ih]
    rfl

/-- Folding the option-minimum over present per-line minima (helper). -/
theorem foldl_omin_some (ls : List PlotLine) (m : ℚ)
    (hf : ∀ l ∈ ls, xlineMin l = some (seriesXMin l)) :
    ls.foldl (fun a l => min_with_none [a, xlineMin l]) (some m)
      = some ((ls.map seriesXMin).foldl min m) := by
  induction ls generalizing m with
  | nil => rfl
  | cons hd tl ih =>
    simp only [List.foldl_cons, List.map_cons]
    rw [hf hd (by simp)]
    show List.foldl _ (some (min m (seriesXMin hd))) tl = _
    rw [ih (min m (seriesXMin hd)) (fun l hl => hf l (by simp [hl]))]

/-- A well-formed line has a present adjusted minimum  (helper). -/
theorem xlineMin_some (l : PlotLine) (hx : l.x ≠ []) (hn : none ∉ l.x) :
    xlineMin l = some (seriesXMin l) := by
  have hfm : l.x.filterMap id ≠ [] := by
    intro hco
    have hall := List.filterMap_eq_nil_iff.mp hco
    cases hcx : l.x with
    | nil => exact hx hcx
    | cons a as =>
      have ha : a = none := by simpa using hall a (by rw [hcx]; simp)
      rw [hcx, ha] at hn
      exact hn (by simp)
  obtain ⟨m, hm⟩ : ∃ m, (l.x.filterMap id).min? = some m := by
    cases hq : (l.x.filterMap id).min? with
    | none => exact absurd (List.min?_eq_none_iff.mp hq) hfm
    | some m => exact ⟨m, rfl⟩
  unfold xlineMin seriesXMin
  rw [min_with_none_eq, hm]
  split_ifs
  · simp
  · simp

/-- C6: for well-formed series (nonempty x, no missing x, bar series with a
supplied bar-width list), the computed raw chart x minimum is exactly the
minimum over all series of each series' minimum x, a bar series' minimum
first reduced by that series' first bar width. -/
theorem calcXMinMax_is_min_over_series (lines : List PlotLine)
    (h : ∀ l ∈ lines, l.x ≠ [] ∧ none ∉ l.x ∧
      (l.plot_type = "bar" → l.bar_width ≠ [])) :
    (calcXMinMax lines).1 = specChartXMin lines := by
  unfold calcXMinMax specChartXMin
  rw [calcXMinMax_fst]
  cases lines with
  | nil => rfl
  | cons hd tl =>
    simp only [List.foldl_cons, List.map_cons]
    have hhd := h hd (by simp)
    rw [show min_with_none [none, xlineMin hd] = xlineMin hd from rfl,
      xlineMin_some hd hhd.1 hhd.2.1,
      foldl_omin_some tl (seriesXMin hd) (fun l hl =>
        xlineMin_some l (h l (by simp [hl])).1 (h l (by simp [hl])).2.1)]
    rfl

/-- The concrete bar series of the C6 witness: samples at x = 0, 10, 20
with uniform bar width 5. -/
def c6barLine : PlotLine :=
  { x := [some 0, some 10, some 20], y := [some 1, some 2, some 3],
    plot_type := "bar", bar_width := [5, 5, 5] }

/-- Witness for C6: a single bar series with samples at x = 0, 10, 20 and
uniform bar width 5 yields a computed x minimum of -5, not 0. -/
theorem calcXMinMax_is_min_over_series_witness :
    (calcXMinMax [c6barLine]).1 = specChartXMin [c6barLine] ∧
    specChartXMin [c6barLine] = some (-5) := by
  constructor
  · exact calcXMinMax_is_min_over_series _ (by
      intro l hl
      rcases List.mem_singleton.mp hl with rfl
      refine ⟨by simp [c6barLine], by simp [c6barLine], fun _ => by simp [c6barLine]⟩)
  · norm_num [specChartXMin, seriesXMin, c6barLine, List.min?, min_def,
      List.filterMap_cons, List.filterMap_nil, List.foldl_cons, List.foldl_nil]


/-- A resolved per-series draw record of `_renderPlotLines`: the series and
the colour, fill colour and width actually passed to the drawing calls. -/
structure LineDraw where
  line : PlotLine
  color : ℤ
  fill_color : ℤ
  width : ℤ
  deriving DecidableEq

/-- `GeneralPlot._renderPlotLines` (`genplot.py` lines 359-407) reduced to
its draw bookkeeping: the list of per-series draw records in draw order.
The source iterates `enumerate(self.line_list[::-1])`, recovers the
original insertion index `iline = nlines - j - 1`, and resolves
colour/fill/width from the per-series value when set, else from the
corresponding palette at `iline % palette length`; the resolved width is
multiplied by the anti-alias factor.  (An empty palette raises
`ZeroDivisionError` in Python; the `getD` default is unreachable under the
theorems' nonemptiness hypotheses.) -/
def renderPlotLines (gp : GeneralPlot) : List LineDraw :=
  (gp.line_list.reverse).enum.map (fun jl =>
    { line := jl.2
      color := jl.2.color.getD (gp.chart_line_colors.getD
        ((gp.line_list.length - jl.1 - 1) % gp.chart_line_colors.length) 0)
      fill_color := jl.2.fill_color.getD (gp.chart_fill_colors.getD
        ((gp.line_list.length - jl.1 - 1) % gp.chart_fill_colors.length) 0)
      width := (jl.2.width.getD (gp.chart_line_widths.getD
        ((gp.line_list.length - jl.1 - 1) % gp.chart_line_widths.length) 0))
        * gp.anti_alias })

/-- C7: the series are drawn in reverse insertion order (the k-th drawn
record holds the line at original index `nlines - 1 - k`, so the
first-added series is drawn last and appears on top), and each record's
colour, fill colour and width fall back to the palette entry at
`(original index) % (palette length)` when the series leaves them unset
(widths scaled by the anti-alias factor, as all widths are). -/
theorem renderPlotLines_reverse_palette (gp : GeneralPlot)
    (hc : gp.chart_line_colors ≠ []) (hf : gp.chart_fill_colors ≠ [])
    (hw : gp.chart_line_widths ≠ []) (k : ℕ) (hk : k < gp.line_list.length) :
    (renderPlotLines gp).length = gp.line_list.length ∧
    (renderPlotLines gp)[k]?
      = (gp.line_list[gp.line_list.length - 1 - k]?).map (fun l =>
        { line := l
          color := l.color.getD (gp.chart_line_colors.getD
            ((gp.line_list.length - 1 - k) % gp.chart_line_colors.length) 0)
          fill_color := l.fill_color.getD (gp.chart_fill_colors.getD
            ((gp.line_list.length - 1 - k) % gp.chart_fill_colors.length) 0)
          width := (l.width.getD (gp.chart_line_widths.getD
            ((gp.line_list.length - 1 - k) % gp.chart_line_widths.length) 0))
            * gp.anti_alias }) := by
  constructor
  · simp [renderPlotLines]
  · unfold renderPlotLines
    rw [List.getElem?_map, List.getElem?_enum,
      List.getElem?_reverse (by simpa using hk)]
    have hidx : gp.line_list.length - k - 1 = gp.line_list.length - 1 - k := by
      omega
    cases gp.line_list[gp.line_list.length - 1 - k]? with
    | none => rfl
    | some l =>
      simp only [Option.map_some']
      rw [hidx]

/-- The concrete two-line plot of the C7 witness: the first-added line has
an explicit colour, the second uses the default palettes. -/
def c7plot : GeneralPlot :=
  { line_list := [
      { x := [some 1], y := [some 2], color := some 7 },
      { x := [some 3], y := [some 4] }] }

/-- Witness for C7: with two lines and the default palettes, the first draw
record holds the second-added line, coloured from palette index
`1 % 3 = 1`. -/
theorem renderPlotLines_reverse_palette_witness :
    (renderPlotLines c7plot).length = c7plot.line_list.length ∧
    (renderPlotLines c7plot)[0]?
      = (c7plot.line_list[c7plot.line_list.length - 1 - 0]?).map (fun l =>
        { line := l
          color := l.color.getD (c7plot.chart_line_colors.getD
            ((c7plot.line_list.length - 1 - 0) % c7plot.chart_line_colors.length) 0)
          fill_color := l.fill_color.getD (c7plot.chart_fill_colors.getD
            ((c7plot.line_list.length - 1 - 0) % c7plot.chart_fill_colors.length) 0)
          width := (l.width.getD (c7plot.chart_line_widths.getD
            ((c7plot.line_list.length - 1 - 0) % c7plot.chart_line_widths.length) 0))
            * c7plot.anti_alias }) :=
  renderPlotLines_reverse_palette c7plot (by decide) (by decide) (by decide) 0
    (by decide)

/-- Three-way `zip`, mirroring Python `zip(xs, ys, ws)` (truncates to the
shortest input). -/
def zip3 {α β γ : Type} : List α → List β → List γ → List (α × β × γ)
  | a :: as, b :: bs, c :: cs => (a, b, c) :: zip3 as bs cs
  | _, _, _ => []

/-- The bar branch of `_renderPlotLines` (`genplot.py` lines 393-397):
`for x, y, bar_width in zip(line.x, line.y, line.bar_width)`, skipping
samples with missing y (`continue`) and otherwise drawing the rectangle
from `(x - bar_width, ymin)` to `(x, y)`, where `ymin` is the resolved
y-scale minimum `self.yscale[0]`.  `x` is never missing for an accumulated
line (enforced by `addLine`), so the `getD 0` is unreachable there. -/
def barRects (xs ys : List (Option ℚ)) (ws : List ℚ) (ymin : ℚ) :
    List ((ℚ × ℚ) × (ℚ × ℚ)) :=
  (zip3 xs ys ws).foldl (fun acc t =>
    match t.2.1 with
    | none => acc
    | some yv => acc ++ [((t.1.getD 0 - t.2.2, ymin), (t.1.getD 0, yv))]) []

/-- C10: bar rendering skips exactly the samples with missing y — the
rectangles drawn are, in order, one per sample with a present y value,
each spanning x from `x - bar_width` to `x` and y from the y-scale minimum
to the sample value. -/
theorem barRects_skips_missing (xs ys : List (Option ℚ)) (ws : List ℚ)
    (ymin : ℚ) :
    barRects xs ys ws ymin = (zip3 xs ys ws).filterMap (fun t =>
      t.2.1.map (fun yv => ((t.1.getD 0 - t.2.2, ymin), (t.1.getD 0, yv)))) := by
  unfold barRects
  suffices haux : ∀ (l : List (Option ℚ × Option ℚ × ℚ))
      (acc : List ((ℚ × ℚ) × (ℚ × ℚ))),
      l.foldl (fun acc t =>
        match t.2.1 with
        | none => acc
        | some yv => acc ++ [((t.1.getD 0 - t.2.2, ymin), (t.1.getD 0, yv))]) acc
      = acc ++ l.filterMap (fun t =>
        t.2.1.map (fun yv => ((t.1.getD 0 - t.2.2, ymin), (t.1.getD 0, yv)))) by
    simpa using haux (zip3 xs ys ws) []
  intro l
  induction l with
  | nil =>
    intro acc
    simp
  | cons hd tl ih =>
    intro acc
    rcases hhd : hd.2.1 with _ | yv <;>
      simp only [List.foldl_cons, List.filterMap_cons, hhd, Option.map_some,
        Option.map_none] <;>
      rw [ih] <;>
      simp

end Weeplot
